import Mathlib

/-!
Shallow embedding of the client-side document history and AI-collaboration
core of the ai-accounting-assistant application.

* `useDocumentHistory` (src/hooks/useFileSystem.ts, lines 314-438): the
  History Store, a localStorage-backed map from document id to
  `DocumentHistoryEntry`, with operations `initializeHistory`,
  `addHistoryStep` (push), `undo`, `redo`, `getHistoryState`
  (canUndo/canRedo), `deleteFileHistory` (discard) and `resetFileHistory`.
* `useChatLogic` (src/unnamed/part_003): the chat transcript operations
  (append, edit-and-regenerate, delete, welcome message) and the AI undo
  snapshot (`previousDocumentContentForUndo` / `undoAIDocumentChange`).

JavaScript idioms are modelled explicitly: an object used as a string-keyed
map becomes a function `String -> Option _`; `Array.prototype.slice` and
negative-index access get dedicated helpers with JS clamping semantics;
`Array.prototype.sort` with the numeric comparator `(a,b) => ta - tb` is a
stable sort, modelled by `List.mergeSort` with the corresponding `<=` test.
-/

namespace AIL

/-! ### JavaScript array helpers -/

/-- JS `l[i]` for a possibly negative integer index: `undefined` (here `none`)
for a negative or out-of-range index. -/
def jsGet (l : List String) (i : Int) : Option String :=
  if 0 ≤ i then l[i.toNat]? else none

/-- JS `l.slice(0, e)` for an integer end index: a negative `e` counts from the
end of the array, and the result is clamped to the array bounds. -/
def jsSliceTo (l : List α) (e : Int) : List α :=
  if e < 0 then l.take ((l.length : Int) + e).toNat else l.take e.toNat

/-- JS `l.slice(-n)` for `n > 0`: the last `n` elements (the whole array when
it is shorter than `n`). -/
def jsSliceLast (l : List α) (n : Nat) : List α :=
  l.drop (l.length - n)

/-! ### History Store (src/hooks/useFileSystem.ts, lines 314-438) -/

/-- `MAX_HISTORY_STEPS` (line 317). -/
def MAX_HISTORY_STEPS : Nat := 50

/-- `DocumentHistoryEntry` (lines 319-322).  `currentIndex` is a JS number
that the code compares against `0` and uses as an array index; the
placeholder entry inside `addHistoryStep` carries `currentIndex = -1`, so it
is modelled as an `Int`. -/
structure DocumentHistoryEntry where
  history : List String
  currentIndex : Int
deriving DecidableEq, Repr

/-- The `documentHistories` state: a JS object keyed by file id, modelled as
a partial map. -/
def DocHistories := String → Option DocumentHistoryEntry

/-- JS `{...prev, [fileId]: entry}`: update one key of the map. -/
def mapSet (m : DocHistories) (fileId : String) (e : DocumentHistoryEntry) :
    DocHistories :=
  fun k => if k = fileId then some e else m k

/-- The empty `documentHistories` map (the `{}` default when localStorage has
no saved value, line 327). -/
def emptyHistories : DocHistories := fun _ => none

/-- `initializeHistory` (lines 334-346): create a fresh one-snapshot entry
unless an entry already exists whose LAST array element
(`history[history.length - 1]`) equals `initialContent`. -/
def initHistory (prev : DocHistories) (fileId initialContent : String) :
    DocHistories :=
  match prev fileId with
  | none => mapSet prev fileId ⟨[initialContent], 0⟩
  | some entry =>
      if jsGet entry.history ((entry.history.length : Int) - 1)
          = some initialContent then
        prev
      else
        mapSet prev fileId ⟨[initialContent], 0⟩

/-- `addHistoryStep` (lines 348-371): push a snapshot.  A missing entry is
replaced by the placeholder `{history: [""], currentIndex: -1}`; the push is
a no-op when the snapshot at `currentIndex` equals `newContent`; otherwise
the history is truncated after `currentIndex`, `newContent` is appended, and
the result is trimmed from the front to `MAX_HISTORY_STEPS` entries. -/
def addHistoryStep (prevHistories : DocHistories) (fileId newContent : String) :
    DocHistories :=
  let currentFileHistory := (prevHistories fileId).getD ⟨[""], -1⟩
  if 0 ≤ currentFileHistory.currentIndex ∧
      jsGet currentFileHistory.history currentFileHistory.currentIndex
        = some newContent then
    prevHistories
  else
    let newHistoryArray :=
      jsSliceTo currentFileHistory.history
        (currentFileHistory.currentIndex + 1) ++ [newContent]
    let newHistoryArray :=
      if MAX_HISTORY_STEPS < newHistoryArray.length then
        jsSliceLast newHistoryArray MAX_HISTORY_STEPS
      else newHistoryArray
    mapSet prevHistories fileId
      ⟨newHistoryArray, (newHistoryArray.length : Int) - 1⟩

/-- `undo` (lines 373-385): when the entry exists and `currentIndex > 0`,
decrement the index and return the new current snapshot; otherwise return
`undefined` and leave the map unchanged. -/
def undo (prev : DocHistories) (fileId : String) :
    Option String × DocHistories :=
  match prev fileId with
  | some historyEntry =>
      if 0 < historyEntry.currentIndex then
        let newIndex := historyEntry.currentIndex - 1
        (jsGet historyEntry.history newIndex,
         mapSet prev fileId ⟨historyEntry.history, newIndex⟩)
      else (none, prev)
  | none => (none, prev)

/-- `redo` (lines 387-399): when the entry exists and
`currentIndex < history.length - 1`, increment the index and return the new
current snapshot; otherwise return `undefined` and leave the map unchanged. -/
def redo (prev : DocHistories) (fileId : String) :
    Option String × DocHistories :=
  match prev fileId with
  | some historyEntry =>
      if historyEntry.currentIndex
          < (historyEntry.history.length : Int) - 1 then
        let newIndex := historyEntry.currentIndex + 1
        (jsGet historyEntry.history newIndex,
         mapSet prev fileId ⟨historyEntry.history, newIndex⟩)
      else (none, prev)
  | none => (none, prev)

/-- `getHistoryState` (lines 401-410): `(canUndo, canRedo)`.  A `null` file
id, the empty string (falsy in JS), and a missing entry all yield
`(false, false)`. -/
def getHistoryState (documentHistories : DocHistories)
    (fileId : Option String) : Bool × Bool :=
  match fileId with
  | none => (false, false)
  | some fid =>
      if fid = "" then (false, false)
      else
        match documentHistories fid with
        | none => (false, false)
        | some e =>
            (decide (0 < e.currentIndex),
             decide (e.currentIndex < (e.history.length : Int) - 1))

/-- `deleteFileHistory` (lines 412-418): remove the entry (JS `delete`). -/
def deleteFileHistory (prev : DocHistories) (fileId : String) : DocHistories :=
  fun k => if k = fileId then none else prev k

/-- `resetFileHistory` (lines 420-425): unconditionally replace the entry by
a fresh one-snapshot history. -/
def resetFileHistory (prev : DocHistories) (fileId content : String) :
    DocHistories :=
  mapSet prev fileId ⟨[content], 0⟩

/-! ### Operation language over the History Store, for invariant and
reachability statements -/

/-- One invocation of a History Store operation (the state-changing part;
`undo`/`redo` also return a snapshot, taken from the same definitions). -/
inductive HistOp where
  | init (fileId content : String)
  | push (fileId content : String)
  | histUndo (fileId : String)
  | histRedo (fileId : String)
  | reset (fileId content : String)
  | discard (fileId : String)
deriving DecidableEq, Repr

/-- The document id an operation addresses. -/
def HistOp.fileId : HistOp → String
  | .init fid _ => fid
  | .push fid _ => fid
  | .histUndo fid => fid
  | .histRedo fid => fid
  | .reset fid _ => fid
  | .discard fid => fid

/-- Apply one operation to the store. -/
def applyOp (hs : DocHistories) : HistOp → DocHistories
  | .init fid c => initHistory hs fid c
  | .push fid c => addHistoryStep hs fid c
  | .histUndo fid => (undo hs fid).2
  | .histRedo fid => (redo hs fid).2
  | .reset fid c => resetFileHistory hs fid c
  | .discard fid => deleteFileHistory hs fid

/-- A store state reachable from the empty store by History Store
operations. -/
def Reachable (hs : DocHistories) : Prop :=
  ∃ ops : List HistOp, hs = ops.foldl applyOp emptyHistories

/-- The per-entry well-formedness invariant of the spec:
`0 <= currentIndex < length(history)`. -/
def EntryWF (e : DocumentHistoryEntry) : Prop :=
  0 ≤ e.currentIndex ∧ e.currentIndex < (e.history.length : Int)

/-- Every entry present in the store is well-formed. -/
def StoreWF (hs : DocHistories) : Prop :=
  ∀ fid e, hs fid = some e → EntryWF e

/-! ### Basic lemmas about the map and the JS helpers -/

theorem mapSet_self (m : DocHistories) (fid : String) (e : DocumentHistoryEntry) :
    mapSet m fid e fid = some e := by
  simp [mapSet]

theorem mapSet_other (m : DocHistories) (fid k : String) (e : DocumentHistoryEntry)
    (h : k ≠ fid) : mapSet m fid e k = m k := by
  simp [mapSet, h]

theorem jsGet_ofNat (l : List String) (n : Nat) : jsGet l (n : Int) = l[n]? := by
  simp [jsGet]

theorem jsGet_last (l : List String) :
    jsGet l ((l.length : Int) - 1) = l.getLast? := by
  rw [List.getLast?_eq_getElem?]
  unfold jsGet
  rcases l with _ | ⟨a, t⟩
  · decide
  · rw [if_pos (by simp only [List.length_cons]; omega)]
    have h1 : ((((a :: t).length : Int)) - 1).toNat = (a :: t).length - 1 := by
      omega
    rw [h1]

theorem jsSliceTo_nonneg (l : List α) (i : Int) (h : 0 ≤ i) :
    jsSliceTo l (i + 1) = l.take (i.toNat + 1) := by
  unfold jsSliceTo
  rw [if_neg (by omega)]
  congr 1
  omega

/-! ### Behaviour of `addHistoryStep` in its three branches -/

/-- A push on a missing entry creates `{history: [content], currentIndex: 0}`
(the placeholder `{history: [""], currentIndex: -1}` fails the idempotence
check, and `slice(0, 0)` discards the `""` placeholder snapshot). -/
theorem addHistoryStep_fresh (hs : DocHistories) (fid c : String)
    (h : hs fid = none) :
    addHistoryStep hs fid c = mapSet hs fid ⟨[c], 0⟩ := by
  simp [addHistoryStep, h, jsSliceTo, jsSliceLast, MAX_HISTORY_STEPS]

/-- A push is a no-op when the snapshot at a nonnegative `currentIndex`
already equals the new content. -/
theorem addHistoryStep_noop (hs : DocHistories) (fid c : String)
    (e : DocumentHistoryEntry) (h : hs fid = some e)
    (h0 : 0 ≤ e.currentIndex)
    (hc : jsGet e.history e.currentIndex = some c) :
    addHistoryStep hs fid c = hs := by
  simp [addHistoryStep, h, h0, hc]

/-- The generic push step on an existing entry: truncate after
`currentIndex`, append, trim the front to the cap.  (`List.drop` of the
over-length amount expresses JS `slice(-50)`; when the appended array is
within the cap the drop is `drop 0` and does nothing.) -/
theorem addHistoryStep_existing (hs : DocHistories) (fid c : String)
    (e : DocumentHistoryEntry) (h : hs fid = some e)
    (h0 : 0 ≤ e.currentIndex)
    (hc : jsGet e.history e.currentIndex ≠ some c) :
    addHistoryStep hs fid c =
      mapSet hs fid
        ⟨(e.history.take (e.currentIndex.toNat + 1) ++ [c]).drop
            ((e.history.take (e.currentIndex.toNat + 1) ++ [c]).length
              - MAX_HISTORY_STEPS),
         (((min (e.history.take (e.currentIndex.toNat + 1) ++ [c]).length
              MAX_HISTORY_STEPS : Nat) : Int) - 1)⟩ := by
  have hsl : jsSliceTo e.history (e.currentIndex + 1)
      = e.history.take (e.currentIndex.toNat + 1) := jsSliceTo_nonneg _ _ h0
  simp only [addHistoryStep, h, Option.getD_some]
  rw [if_neg (by intro hcon; exact hc hcon.2), hsl]
  set t := e.history.take (e.currentIndex.toNat + 1) ++ [c] with ht
  by_cases hlen : MAX_HISTORY_STEPS < t.length
  · rw [if_pos hlen]
    unfold jsSliceLast
    have hidx : ((t.drop (t.length - MAX_HISTORY_STEPS)).length : Int) - 1
        = ((min t.length MAX_HISTORY_STEPS : Nat) : Int) - 1 := by
      rw [List.length_drop, Nat.min_eq_right (Nat.le_of_lt hlen)]
      omega
    rw [hidx]
  · rw [if_neg hlen]
    have hz : t.length - MAX_HISTORY_STEPS = 0 := by omega
    rw [hz, List.drop_zero]
    have hidx : ((t.length : Int)) - 1
        = ((min t.length MAX_HISTORY_STEPS : Nat) : Int) - 1 := by
      rw [Nat.min_eq_left (by omega)]
    rw [hidx]

/-- C2 counterexample: `push` on an id with no entry is NOT a no-op on the
store map — it creates the entry `{history: ["a"], currentIndex: 0}`. -/
theorem push_unknown_id_creates_entry :
    ¬ (addHistoryStep emptyHistories "doc" "a") "doc"
        = emptyHistories "doc" := by decide

/-- C2 (amended): on a document id with no entry, `undo`/`redo` return
nothing and leave the map unchanged, `canUndo`/`canRedo` are `false, false`,
`discard` leaves the map unchanged, and `initialize`, `reset` AND `push`
each create the fresh entry `{history: [content], currentIndex: 0}` (push on
an unknown id is not a no-op). -/
theorem unknown_id_behavior (hs : DocHistories) (fid c : String)
    (h : hs fid = none) :
    undo hs fid = (none, hs)
  ∧ redo hs fid = (none, hs)
  ∧ getHistoryState hs (some fid) = (false, false)
  ∧ (∀ k, deleteFileHistory hs fid k = hs k)
  ∧ (addHistoryStep hs fid c) fid = some ⟨[c], 0⟩
  ∧ (∀ k, k ≠ fid → (addHistoryStep hs fid c) k = hs k)
  ∧ (initHistory hs fid c) fid = some ⟨[c], 0⟩
  ∧ (resetFileHistory hs fid c) fid = some ⟨[c], 0⟩ := by
  refine ⟨?_, ?_, ?_, ?_, ?_, ?_, ?_, ?_⟩
  · unfold undo; rw [h]
  · unfold redo; rw [h]
  · by_cases hf : fid = ""
    · simp [getHistoryState, hf]
    · simp [getHistoryState, hf, h]
  · intro k
    unfold deleteFileHistory
    by_cases hk : k = fid
    · rw [if_pos hk, hk, h]
    · rw [if_neg hk]
  · rw [addHistoryStep_fresh hs fid c h, mapSet_self]
  · intro k hk
    rw [addHistoryStep_fresh hs fid c h, mapSet_other _ _ _ _ hk]
  · unfold initHistory; rw [h]; exact mapSet_self _ _ _
  · unfold resetFileHistory; exact mapSet_self _ _ _

/-- C2 witness: the amended behaviour at a concrete unknown id. -/
theorem unknown_id_behavior_witness :
    undo emptyHistories "doc" = (none, emptyHistories)
  ∧ redo emptyHistories "doc" = (none, emptyHistories)
  ∧ getHistoryState emptyHistories (some "doc") = (false, false)
  ∧ (∀ k, deleteFileHistory emptyHistories "doc" k = emptyHistories k)
  ∧ (addHistoryStep emptyHistories "doc" "a") "doc" = some ⟨["a"], 0⟩
  ∧ (∀ k, k ≠ "doc" → (addHistoryStep emptyHistories "doc" "a") k
        = emptyHistories k)
  ∧ (initHistory emptyHistories "doc" "a") "doc" = some ⟨["a"], 0⟩
  ∧ (resetFileHistory emptyHistories "doc" "a") "doc" = some ⟨["a"], 0⟩ :=
  unknown_id_behavior emptyHistories "doc" "a" rfl

/-- C3: `initialize(id, content)` leaves an existing entry untouched exactly
when the LAST array element of its history equals `content`; with no entry,
or when the last element differs, it installs `{history:[content],
currentIndex:0}` and leaves every other id alone. -/
theorem initHistory_contract (hs : DocHistories) (fid c : String) :
    (∀ e, hs fid = some e →
      ((∀ k, initHistory hs fid c k = hs k)
        ↔ jsGet e.history ((e.history.length : Int) - 1) = some c))
  ∧ (hs fid = none → (initHistory hs fid c) fid = some ⟨[c], 0⟩)
  ∧ (∀ e, hs fid = some e →
      jsGet e.history ((e.history.length : Int) - 1) ≠ some c →
      (initHistory hs fid c) fid = some ⟨[c], 0⟩
        ∧ ∀ k, k ≠ fid → initHistory hs fid c k = hs k) := by
  refine ⟨?_, ?_, ?_⟩
  · intro e he
    constructor
    · intro hfix
      by_contra hne
      have h1 : initHistory hs fid c fid = some ⟨[c], 0⟩ := by
        simp only [initHistory, he]
        rw [if_neg hne]
        exact mapSet_self _ _ _
      have h2 : e = ⟨[c], 0⟩ :=
        Option.some_injective _ (he.symm.trans ((hfix fid).symm.trans h1))
      rw [h2] at hne
      exact hne (by simp [jsGet])
    · intro hlast k
      simp only [initHistory, he]
      rw [if_pos hlast]
  · intro he
    simp only [initHistory, he]
    exact mapSet_self _ _ _
  · intro e he hne
    have hrw : initHistory hs fid c = mapSet hs fid ⟨[c], 0⟩ := by
      simp only [initHistory, he]
      rw [if_neg hne]
    exact ⟨by rw [hrw]; exact mapSet_self _ _ _,
           fun k hk => by rw [hrw]; exact mapSet_other _ _ _ _ hk⟩

/-- C3 witness: on the entry `{history: ["a","b","c"], currentIndex: 1}`,
re-initialising with `"c"` (the last element) is a no-op even though the
snapshot at `currentIndex` is `"b"`, and re-initialising with `"x"` replaces
the entry. -/
theorem initHistory_contract_witness :
    (∀ k, initHistory (mapSet emptyHistories "doc" ⟨["a", "b", "c"], 1⟩)
        "doc" "c" k
      = mapSet emptyHistories "doc" ⟨["a", "b", "c"], 1⟩ k)
  ∧ (initHistory (mapSet emptyHistories "doc" ⟨["a", "b", "c"], 1⟩)
        "doc" "x") "doc" = some ⟨["x"], 0⟩ := by
  constructor
  · exact ((initHistory_contract
      (mapSet emptyHistories "doc" ⟨["a", "b", "c"], 1⟩) "doc" "c").1
        ⟨["a", "b", "c"], 1⟩ (by decide)).mpr (by decide)
  · exact (((initHistory_contract
      (mapSet emptyHistories "doc" ⟨["a", "b", "c"], 1⟩) "doc" "x").2.2
        ⟨["a", "b", "c"], 1⟩ (by decide)) (by decide)).1

/-! ### Frame lemmas -/

/-- Any History Store operation leaves every other document id's entry
unchanged. -/
theorem applyOp_other (hs : DocHistories) (op : HistOp) (k : String)
    (hk : k ≠ op.fileId) : applyOp hs op k = hs k := by
  cases op with
  | init fid c =>
      simp only [applyOp, HistOp.fileId] at hk ⊢
      rcases hE : hs fid with _ | e
      · simp only [initHistory, hE]
        exact mapSet_other _ _ _ _ hk
      · simp only [initHistory, hE]
        by_cases hc : jsGet e.history ((e.history.length : Int) - 1) = some c
        · rw [if_pos hc]
        · rw [if_neg hc]
          exact mapSet_other _ _ _ _ hk
  | push fid c =>
      simp only [applyOp, HistOp.fileId] at hk ⊢
      simp only [addHistoryStep]
      split
      · rfl
      · exact mapSet_other _ _ _ _ hk
  | histUndo fid =>
      simp only [applyOp, HistOp.fileId] at hk ⊢
      rcases hE : hs fid with _ | e
      · simp only [undo, hE]
      · simp only [undo, hE]
        split
        · exact mapSet_other _ _ _ _ hk
        · rfl
  | histRedo fid =>
      simp only [applyOp, HistOp.fileId] at hk ⊢
      rcases hE : hs fid with _ | e
      · simp only [redo, hE]
      · simp only [redo, hE]
        split
        · exact mapSet_other _ _ _ _ hk
        · rfl
  | reset fid c =>
      simp only [applyOp, HistOp.fileId] at hk ⊢
      unfold resetFileHistory
      exact mapSet_other _ _ _ _ hk
  | discard fid =>
      simp only [applyOp, HistOp.fileId] at hk ⊢
      unfold deleteFileHistory
      rw [if_neg hk]

/-- C10: `undo` and `redo` never change the snapshot sequence of the entry
they act on (only `currentIndex`), and every History Store operation leaves
the entries of every other document id unchanged. -/
theorem history_frame_property (hs : DocHistories) (fid : String) :
    (((undo hs fid).2 fid).map DocumentHistoryEntry.history
        = (hs fid).map DocumentHistoryEntry.history)
  ∧ (((redo hs fid).2 fid).map DocumentHistoryEntry.history
        = (hs fid).map DocumentHistoryEntry.history)
  ∧ (∀ op : HistOp, ∀ k, k ≠ op.fileId → applyOp hs op k = hs k) := by
  refine ⟨?_, ?_, fun op k hk => applyOp_other hs op k hk⟩
  · rcases hE : hs fid with _ | e
    · simp [undo, hE]
    · simp only [undo, hE]
      split
      · simp [mapSet_self, hE]
      · simp [hE]
  · rcases hE : hs fid with _ | e
    · simp [redo, hE]
    · simp only [redo, hE]
      split
      · simp [mapSet_self, hE]
      · simp [hE]

/-- C10 witness: at a concrete two-snapshot store, `undo` keeps the history
array and a push addressed to one id leaves the other id's entry alone. -/
theorem history_frame_property_witness :
    (((undo (mapSet emptyHistories "doc" ⟨["a", "b"], 1⟩) "doc").2 "doc").map
        DocumentHistoryEntry.history
      = ((mapSet emptyHistories "doc" ⟨["a", "b"], 1⟩) "doc").map
          DocumentHistoryEntry.history)
  ∧ applyOp (mapSet emptyHistories "doc" ⟨["a", "b"], 1⟩)
      (HistOp.push "other" "x") "doc"
    = (mapSet emptyHistories "doc" ⟨["a", "b"], 1⟩) "doc" :=
  ⟨(history_frame_property (mapSet emptyHistories "doc" ⟨["a", "b"], 1⟩)
      "doc").1,
   (history_frame_property (mapSet emptyHistories "doc" ⟨["a", "b"], 1⟩)
      "doc").2.2 (HistOp.push "other" "x") "doc" (by decide)⟩

/-! ### The index invariant -/

theorem storeWF_empty : StoreWF emptyHistories := by
  intro fid e h
  exact absurd h (by simp [emptyHistories])

theorem entryWF_single (c : String) : EntryWF ⟨[c], 0⟩ := by
  unfold EntryWF
  simp

theorem entryWF_last (arr : List String) (h : arr ≠ []) :
    EntryWF ⟨arr, (arr.length : Int) - 1⟩ := by
  have hl : 0 < arr.length := List.length_pos.mpr h
  unfold EntryWF
  simp only
  omega

theorem mapSet_WF (hs : DocHistories) (fid : String) (e : DocumentHistoryEntry)
    (hWF : StoreWF hs) (he : EntryWF e) : StoreWF (mapSet hs fid e) := by
  intro k e' h
  by_cases hk : k = fid
  · rw [hk, mapSet_self] at h
    rw [← Option.some_injective _ h]
    exact he
  · rw [mapSet_other _ _ _ _ hk] at h
    exact hWF _ _ h

theorem applyOp_WF (hs : DocHistories) (op : HistOp) (hWF : StoreWF hs) :
    StoreWF (applyOp hs op) := by
  cases op with
  | init fid c =>
      simp only [applyOp]
      rcases hE : hs fid with _ | e
      · simp only [initHistory, hE]
        exact mapSet_WF _ _ _ hWF (entryWF_single c)
      · simp only [initHistory, hE]
        split
        · exact hWF
        · exact mapSet_WF _ _ _ hWF (entryWF_single c)
  | push fid c =>
      simp only [applyOp, addHistoryStep]
      split
      · exact hWF
      · apply mapSet_WF _ _ _ hWF
        apply entryWF_last
        have hM : MAX_HISTORY_STEPS = 50 := rfl
        split
        · rename_i htrim
          rw [← List.length_pos]
          unfold jsSliceLast
          rw [List.length_drop]
          omega
        · simp
  | histUndo fid =>
      simp only [applyOp]
      rcases hE : hs fid with _ | e
      · simp only [undo, hE]
        exact hWF
      · simp only [undo, hE]
        split
        · rename_i hi
          have hwf := hWF fid e hE
          unfold EntryWF at hwf
          apply mapSet_WF _ _ _ hWF
          unfold EntryWF
          simp only
          omega
        · exact hWF
  | histRedo fid =>
      simp only [applyOp]
      rcases hE : hs fid with _ | e
      · simp only [redo, hE]
        exact hWF
      · simp only [redo, hE]
        split
        · rename_i hi
          have hwf := hWF fid e hE
          unfold EntryWF at hwf
          apply mapSet_WF _ _ _ hWF
          unfold EntryWF
          simp only
          omega
        · exact hWF
  | reset fid c =>
      simp only [applyOp]
      exact mapSet_WF _ _ _ hWF (entryWF_single c)
  | discard fid =>
      simp only [applyOp]
      intro k e h
      unfold deleteFileHistory at h
      by_cases hk : k = fid
      · rw [if_pos hk] at h
        exact absurd h (by simp)
      · rw [if_neg hk] at h
        exact hWF _ _ h

theorem foldl_applyOp_WF (ops : List HistOp) :
    ∀ hs : DocHistories, StoreWF hs → StoreWF (ops.foldl applyOp hs) := by
  induction ops with
  | nil => exact fun hs h => h
  | cons op rest ih =>
      intro hs h
      exact ih (applyOp hs op) (applyOp_WF hs op h)

/-- C7: in every store state reachable from the empty store by History Store
operations, each present entry satisfies `0 <= currentIndex <
length(history)`; moreover every operation preserves this invariant from any
state that satisfies it. -/
theorem historyEntry_index_invariant :
    (∀ (hs : DocHistories) (op : HistOp), StoreWF hs → StoreWF (applyOp hs op))
  ∧ (∀ hs : DocHistories, Reachable hs → StoreWF hs) := by
  refine ⟨fun hs op h => applyOp_WF hs op h, ?_⟩
  rintro hs ⟨ops, rfl⟩
  exact foldl_applyOp_WF ops emptyHistories storeWF_empty

/-- C7 witness: the invariant at a concrete reachable state (one push onto
the empty store). -/
theorem historyEntry_index_invariant_witness :
    StoreWF (applyOp emptyHistories (HistOp.push "doc" "a")) :=
  historyEntry_index_invariant.2 (applyOp emptyHistories (HistOp.push "doc" "a"))
    ⟨[HistOp.push "doc" "a"], rfl⟩

/-! ### The push contract (C4) -/

/-- After any push, the entry for the pushed id exists, its index is
nonnegative, and the snapshot at the index is the pushed content. -/
theorem addHistoryStep_current (hs : DocHistories) (fid c : String) :
    ∃ e, (addHistoryStep hs fid c) fid = some e ∧ 0 ≤ e.currentIndex ∧
      jsGet e.history e.currentIndex = some c := by
  rcases hfe : hs fid with _ | e0
  · refine ⟨⟨[c], 0⟩, ?_, by norm_num, by simp [jsGet]⟩
    rw [addHistoryStep_fresh hs fid c hfe]
    exact mapSet_self _ _ _
  · by_cases hcond : 0 ≤ e0.currentIndex ∧
        jsGet e0.history e0.currentIndex = some c
    · refine ⟨e0, ?_, hcond.1, hcond.2⟩
      rw [addHistoryStep_noop hs fid c e0 hfe hcond.1 hcond.2]
      exact hfe
    · simp only [addHistoryStep, hfe, Option.getD_some]
      rw [if_neg hcond]
      have hM : MAX_HISTORY_STEPS = 50 := rfl
      set l := jsSliceTo e0.history (e0.currentIndex + 1) ++ [c] with hl
      have hlast : l.getLast? = some c := List.getLast?_concat _
      by_cases htrim : MAX_HISTORY_STEPS < l.length
      · rw [if_pos htrim]
        have hlen : (jsSliceLast l MAX_HISTORY_STEPS).length
            = MAX_HISTORY_STEPS := by
          unfold jsSliceLast
          rw [List.length_drop]
          omega
        have hlastL : (jsSliceLast l MAX_HISTORY_STEPS).getLast?
            = some c := by
          unfold jsSliceLast
          rw [hl, List.drop_append_of_le_length
            (by simp only [List.length_append, List.length_cons,
                  List.length_nil]; omega)]
          exact List.getLast?_concat _
        refine ⟨_, mapSet_self _ _ _, ?_, ?_⟩
        · dsimp only
          omega
        · dsimp only
          rw [jsGet_last]
          exact hlastL
      · rw [if_neg htrim]
        have hlp : 0 < l.length := by
          rw [hl]
          simp
        refine ⟨_, mapSet_self _ _ _, ?_, ?_⟩
        · dsimp only
          omega
        · dsimp only
          rw [jsGet_last]
          exact hlast

/-- C4: the push contract.  (1) push is a no-op when the new content equals
the snapshot at a (nonnegative) `currentIndex`; (2) pushing the same content
twice in a row equals pushing it once, from ANY starting state; (3) the
general step truncates after `currentIndex`, appends, advances the index to
the last position, and trims the front to the cap; (4) the sequence
`push c0; push c1; push c2; undo; push c3` (consecutive contents distinct,
starting with no entry) yields `{history: [c0, c1, c3], currentIndex: 2}`
with `canRedo = false`. -/
theorem push_contract :
    (∀ (hs : DocHistories) (fid c : String) (e : DocumentHistoryEntry),
       hs fid = some e → 0 ≤ e.currentIndex →
       jsGet e.history e.currentIndex = some c →
       addHistoryStep hs fid c = hs)
  ∧ (∀ (hs : DocHistories) (fid c : String),
       addHistoryStep (addHistoryStep hs fid c) fid c
         = addHistoryStep hs fid c)
  ∧ (∀ (hs : DocHistories) (fid c : String) (e : DocumentHistoryEntry),
       hs fid = some e → 0 ≤ e.currentIndex →
       jsGet e.history e.currentIndex ≠ some c →
       addHistoryStep hs fid c =
         mapSet hs fid
           ⟨(e.history.take (e.currentIndex.toNat + 1) ++ [c]).drop
               ((e.history.take (e.currentIndex.toNat + 1) ++ [c]).length
                 - MAX_HISTORY_STEPS),
            (((min (e.history.take (e.currentIndex.toNat + 1) ++ [c]).length
                 MAX_HISTORY_STEPS : Nat) : Int) - 1)⟩)
  ∧ (∀ (hs : DocHistories) (fid c0 c1 c2 c3 : String),
       hs fid = none → c1 ≠ c0 → c2 ≠ c1 → c3 ≠ c1 →
       let s3 := addHistoryStep
         (addHistoryStep (addHistoryStep hs fid c0) fid c1) fid c2
       let s5 := addHistoryStep (undo s3 fid).2 fid c3
       s5 fid = some ⟨[c0, c1, c3], 2⟩
         ∧ (getHistoryState s5 (some fid)).2 = false) := by
  refine ⟨addHistoryStep_noop, ?_, addHistoryStep_existing, ?_⟩
  · intro hs fid c
    obtain ⟨e, he, h0, hc⟩ := addHistoryStep_current hs fid c
    exact addHistoryStep_noop _ _ _ e he h0 hc
  · intro hs fid c0 c1 c2 c3 hfe hc1 hc2 hc3
    have h1 : (addHistoryStep hs fid c0) fid = some ⟨[c0], 0⟩ := by
      rw [addHistoryStep_fresh hs fid c0 hfe]
      exact mapSet_self _ _ _
    have h2 : (addHistoryStep (addHistoryStep hs fid c0) fid c1) fid
        = some ⟨[c0, c1], 1⟩ := by
      rw [addHistoryStep_existing _ fid c1 ⟨[c0], 0⟩ h1 (by norm_num)
        (by simp [jsGet]; exact fun h => hc1 h.symm)]
      rw [mapSet_self]
      norm_num [MAX_HISTORY_STEPS]
    have h3 : (addHistoryStep (addHistoryStep (addHistoryStep hs fid c0)
        fid c1) fid c2) fid = some ⟨[c0, c1, c2], 2⟩ := by
      rw [addHistoryStep_existing _ fid c2 ⟨[c0, c1], 1⟩ h2 (by norm_num)
        (by simp [jsGet]; exact fun h => hc2 h.symm)]
      rw [mapSet_self]
      norm_num [MAX_HISTORY_STEPS]
    show (addHistoryStep (undo (addHistoryStep (addHistoryStep
        (addHistoryStep hs fid c0) fid c1) fid c2) fid).2 fid c3) fid
          = some ⟨[c0, c1, c3], 2⟩
      ∧ (getHistoryState (addHistoryStep (undo (addHistoryStep
          (addHistoryStep (addHistoryStep hs fid c0) fid c1) fid c2)
          fid).2 fid c3) (some fid)).2 = false
    have h4 : (undo (addHistoryStep (addHistoryStep (addHistoryStep hs fid
        c0) fid c1) fid c2) fid).2 fid = some ⟨[c0, c1, c2], 1⟩ := by
      simp only [undo, h3]
      rw [if_pos (by norm_num)]
      simp only [mapSet_self]
      norm_num
    have h5 : (addHistoryStep (undo (addHistoryStep (addHistoryStep
        (addHistoryStep hs fid c0) fid c1) fid c2) fid).2 fid c3) fid
        = some ⟨[c0, c1, c3], 2⟩ := by
      rw [addHistoryStep_existing _ fid c3 ⟨[c0, c1, c2], 1⟩ h4 (by norm_num)
        (by simp [jsGet]; exact fun h => hc3 h.symm)]
      rw [mapSet_self]
      norm_num [MAX_HISTORY_STEPS]
    refine ⟨h5, ?_⟩
    by_cases hf : fid = ""
    · simp [getHistoryState, hf]
    · simp [getHistoryState, hf, h5]

/-- C4 witness: immediate double push on a concrete store, and the concrete
branch-truncation scenario. -/
theorem push_contract_witness :
    addHistoryStep (addHistoryStep emptyHistories "doc" "a") "doc" "a"
      = addHistoryStep emptyHistories "doc" "a"
  ∧ (addHistoryStep (undo (addHistoryStep (addHistoryStep (addHistoryStep
      emptyHistories "doc" "p") "doc" "q") "doc" "r") "doc").2 "doc" "s")
      "doc" = some ⟨["p", "q", "s"], 2⟩ :=
  ⟨push_contract.2.1 emptyHistories "doc" "a",
   (push_contract.2.2.2 emptyHistories "doc" "p" "q" "r" "s" rfl
      (by decide) (by decide) (by decide)).1⟩

/-! ### Cap enforcement (C8) -/

/-- A sequence of pushes for one document id. -/
def pushAll (hs : DocHistories) (fileId : String) (cs : List String) :
    DocHistories :=
  cs.foldl (fun h c => addHistoryStep h fileId c) hs

/-- Distinct short content strings for concrete scenarios. -/
def nm (i : Nat) : String := "c" ++ String.mk (Nat.toDigits 10 i)

/-- Every present entry respects the 50-snapshot cap. -/
def CapOK (hs : DocHistories) : Prop :=
  ∀ fid e, hs fid = some e → e.history.length ≤ MAX_HISTORY_STEPS

theorem capOK_empty : CapOK emptyHistories := by
  intro fid e h
  exact absurd h (by simp [emptyHistories])

theorem mapSet_cap (hs : DocHistories) (fid : String)
    (e : DocumentHistoryEntry) (hcap : CapOK hs)
    (he : e.history.length ≤ MAX_HISTORY_STEPS) : CapOK (mapSet hs fid e) := by
  intro k e' h
  by_cases hk : k = fid
  · rw [hk, mapSet_self] at h
    rw [← Option.some_injective _ h]
    exact he
  · rw [mapSet_other _ _ _ _ hk] at h
    exact hcap _ _ h

theorem applyOp_cap (hs : DocHistories) (op : HistOp) (hcap : CapOK hs) :
    CapOK (applyOp hs op) := by
  cases op with
  | init fid c =>
      simp only [applyOp]
      rcases hE : hs fid with _ | e
      · simp only [initHistory, hE]
        exact mapSet_cap _ _ _ hcap (by simp [MAX_HISTORY_STEPS])
      · simp only [initHistory, hE]
        split
        · exact hcap
        · exact mapSet_cap _ _ _ hcap (by simp [MAX_HISTORY_STEPS])
  | push fid c =>
      simp only [applyOp, addHistoryStep]
      split
      · exact hcap
      · apply mapSet_cap _ _ _ hcap
        split
        · rename_i htrim
          unfold jsSliceLast
          simp only [List.length_drop]
          omega
        · rename_i htrim
          simp only
          omega
  | histUndo fid =>
      simp only [applyOp]
      rcases hE : hs fid with _ | e
      · simp only [undo, hE]
        exact hcap
      · simp only [undo, hE]
        split
        · exact mapSet_cap _ _ _ hcap (hcap fid e hE)
        · exact hcap
  | histRedo fid =>
      simp only [applyOp]
      rcases hE : hs fid with _ | e
      · simp only [redo, hE]
        exact hcap
      · simp only [redo, hE]
        split
        · exact mapSet_cap _ _ _ hcap (hcap fid e hE)
        · exact hcap
  | reset fid c =>
      simp only [applyOp]
      exact mapSet_cap _ _ _ hcap (by simp [MAX_HISTORY_STEPS])
  | discard fid =>
      simp only [applyOp]
      intro k e h
      unfold deleteFileHistory at h
      by_cases hk : k = fid
      · rw [if_pos hk] at h
        exact absurd h (by simp)
      · rw [if_neg hk] at h
        exact hcap _ _ h

theorem foldl_applyOp_cap (ops : List HistOp) :
    ∀ hs : DocHistories, CapOK hs → CapOK (ops.foldl applyOp hs) := by
  induction ops with
  | nil => exact fun hs h => h
  | cons op rest ih =>
      intro hs h
      exact ih (applyOp hs op) (applyOp_cap hs op h)

set_option maxRecDepth 10000 in
/-- C8 counterexample: initialising with `c0` and then pushing the 60
distinct contents `c1..c60` yields a 50-entry history in which the 11th
snapshot `c10` is NOT present — the earliest ELEVEN snapshots are evicted,
not ten, because the initial snapshot also counts towards the cap. -/
theorem cap_enforcement_cex :
    ((pushAll (initHistory emptyHistories "doc" (nm 0)) "doc"
        ((List.range 60).map (fun i => nm (i + 1)))) "doc").map
      (fun e => e.history.length) = some 50
  ∧ ((pushAll (initHistory emptyHistories "doc" (nm 0)) "doc"
        ((List.range 60).map (fun i => nm (i + 1)))) "doc").map
      (fun e => e.history.contains (nm 10)) = some false := by
  constructor
  · decide
  · decide

set_option maxRecDepth 10000 in
/-- C8 (amended): the history of every entry in a reachable store never
exceeds 50 snapshots (and every operation preserves the cap bound from any
state satisfying it); initialising with `c0` and pushing the 60 distinct
contents `c1..c60` yields exactly the 50 snapshots `c11..c60` with
`currentIndex = 49` pointing at the last position, which is the snapshot
just pushed — the earliest ELEVEN snapshots (`c0..c10`) are evicted. -/
theorem cap_enforcement_amended :
    (∀ (hs : DocHistories) (op : HistOp), CapOK hs → CapOK (applyOp hs op))
  ∧ (∀ hs : DocHistories, Reachable hs → CapOK hs)
  ∧ (pushAll (initHistory emptyHistories "doc" (nm 0)) "doc"
        ((List.range 60).map (fun i => nm (i + 1)))) "doc"
      = some ⟨(List.range 50).map (fun i => nm (i + 11)), 49⟩
  ∧ ((List.range 50).map (fun i => nm (i + 11))).getLast? = some (nm 60) := by
  refine ⟨fun hs op h => applyOp_cap hs op h, ?_, by decide, by decide⟩
  rintro hs ⟨ops, rfl⟩
  exact foldl_applyOp_cap ops emptyHistories capOK_empty

/-- C8 witness: the cap bound at a concrete reachable state. -/
theorem cap_enforcement_witness :
    CapOK (applyOp emptyHistories (HistOp.push "doc" "b")) :=
  cap_enforcement_amended.2.1 (applyOp emptyHistories (HistOp.push "doc" "b"))
    ⟨[HistOp.push "doc" "b"], rfl⟩

/-! ### The undo/redo inverse law (C1) -/

theorem jsGet_lt (L : List String) (n : Nat) (h : n < L.length) :
    jsGet L (n : Int) = some (L.getD n "") := by
  simp only [jsGet]
  rw [if_pos (by omega)]
  have ht : ((n : Int)).toNat = n := by omega
  rw [ht, List.getElem?_eq_getElem h, List.getD_eq_getElem?_getD,
    List.getElem?_eq_getElem h]
  rfl

/-- Running a sequence of pushes whose contents are pairwise distinct from
their predecessors (anchored at the last element `a` of the existing
history), all within the cap, appends them one by one. -/
theorem pushAll_run (cs : List String) : ∀ (hs : DocHistories) (fid : String)
    (H : List String) (a : String), H.getLast? = some a →
    H.length + cs.length ≤ MAX_HISTORY_STEPS →
    List.Chain' (fun x y => x ≠ y) (a :: cs) →
    hs fid = some ⟨H, (H.length : Int) - 1⟩ →
    (pushAll hs fid cs) fid = some ⟨H ++ cs, ((H ++ cs).length : Int) - 1⟩ := by
  induction cs with
  | nil =>
      intro hs fid H a _ _ _ h
      simpa [pushAll] using h
  | cons c cs' ih =>
      intro hs fid H a hlast hcap hchain h
      have hH : H ≠ [] := by
        intro hnil
        rw [hnil] at hlast
        exact absurd hlast (by simp)
      have hlen1 : 0 < H.length := List.length_pos.mpr hH
      have hane : a ≠ c := (List.chain'_cons.mp hchain).1
      have hcap' : H.length + cs'.length + 1 ≤ MAX_HISTORY_STEPS := by
        simp only [List.length_cons] at hcap
        omega
      have hstep : addHistoryStep hs fid c
          = mapSet hs fid ⟨H ++ [c], ((H ++ [c]).length : Int) - 1⟩ := by
        rw [addHistoryStep_existing hs fid c ⟨H, (H.length : Int) - 1⟩ h
          (by dsimp only; omega)
          (by
            dsimp only
            rw [jsGet_last, hlast]
            exact fun hsc => hane (Option.some_injective _ hsc))]
        have htk : (((H.length : Int)) - 1).toNat + 1 = H.length := by omega
        rw [htk, List.take_length]
        have hlen2 : (H ++ [c]).length ≤ MAX_HISTORY_STEPS := by
          simp only [List.length_append, List.length_cons, List.length_nil]
          omega
        have hd : (H ++ [c]).length - MAX_HISTORY_STEPS = 0 := by omega
        rw [hd, List.drop_zero, Nat.min_eq_left hlen2]
      have hnext := ih (mapSet hs fid ⟨H ++ [c], ((H ++ [c]).length : Int) - 1⟩)
        fid (H ++ [c]) c (List.getLast?_concat _)
        (by simp only [List.length_append, List.length_cons, List.length_nil]
            omega)
        ((List.chain'_cons.mp hchain).2) (mapSet_self _ _ _)
      show (List.foldl (fun h c => addHistoryStep h fid c) hs (c :: cs')) fid
        = _
      rw [List.foldl_cons, hstep]
      rw [show H ++ c :: cs' = (H ++ [c]) ++ cs' by simp]
      exact hnext

/-- `k` successive calls to `undo`, collecting the returned snapshots. -/
def undoRun : Nat → DocHistories → String → List (Option String) × DocHistories
  | 0, hs, _ => ([], hs)
  | k + 1, hs, fid =>
      let r := undo hs fid
      let rest := undoRun k r.2 fid
      (r.1 :: rest.1, rest.2)

/-- `k` successive calls to `redo`, collecting the returned snapshots. -/
def redoRun : Nat → DocHistories → String → List (Option String) × DocHistories
  | 0, hs, _ => ([], hs)
  | k + 1, hs, fid =>
      let r := redo hs fid
      let rest := redoRun k r.2 fid
      (r.1 :: rest.1, rest.2)

/-- Undoing `k` times from index `i` returns the snapshots
`L[i-1], L[i-2], ..., L[i-k]` and lands on index `i - k`. -/
theorem undoRun_spec (k : Nat) : ∀ (hs : DocHistories) (fid : String)
    (L : List String) (i : Nat), k ≤ i → i < L.length →
    hs fid = some ⟨L, (i : Int)⟩ →
    (undoRun k hs fid).1
        = (List.range k).map (fun j => some (L.getD (i - 1 - j) ""))
    ∧ (undoRun k hs fid).2 fid = some ⟨L, ((i - k : Nat) : Int)⟩ := by
  induction k with
  | zero =>
      intro hs fid L i _ _ h
      simpa [undoRun] using h
  | succ k ih =>
      intro hs fid L i hk hi h
      have hipos : 0 < i := by omega
      have hstep : undo hs fid
          = (some (L.getD (i - 1) ""),
             mapSet hs fid ⟨L, ((i - 1 : Nat) : Int)⟩) := by
        simp only [undo, h]
        rw [if_pos (show (0 : Int)
          < (⟨L, (i : Int)⟩ : DocumentHistoryEntry).currentIndex by
            dsimp only; omega)]
        have hcast : ((i : Int)) - 1 = ((i - 1 : Nat) : Int) := by omega
        rw [hcast, jsGet_lt L (i - 1) (by omega)]
      obtain ⟨ih1, ih2⟩ := ih (mapSet hs fid ⟨L, ((i - 1 : Nat) : Int)⟩) fid L
        (i - 1) (by omega) (by omega) (mapSet_self _ _ _)
      constructor
      · show (undo hs fid).1 :: (undoRun k (undo hs fid).2 fid).1 = _
        rw [hstep]
        rw [ih1, List.range_succ_eq_map, List.map_cons, List.map_map]
        congr 1
        apply List.map_congr_left
        intro j _
        show some (L.getD (i - 1 - 1 - j) "")
          = some (L.getD (i - 1 - (j + 1)) "")
        exact congrArg (fun m => some (L.getD m "")) (by omega)
      · show (undoRun k (undo hs fid).2 fid).2 fid = _
        rw [hstep]
        rw [ih2]
        have : i - 1 - k = i - (k + 1) := by omega
        rw [this]

/-- Redoing `k` times from index `i` returns the snapshots
`L[i+1], ..., L[i+k]` and lands on index `i + k`. -/
theorem redoRun_spec (k : Nat) : ∀ (hs : DocHistories) (fid : String)
    (L : List String) (i : Nat), i + k < L.length →
    hs fid = some ⟨L, (i : Int)⟩ →
    (redoRun k hs fid).1
        = (List.range k).map (fun j => some (L.getD (i + 1 + j) ""))
    ∧ (redoRun k hs fid).2 fid = some ⟨L, ((i + k : Nat) : Int)⟩ := by
  induction k with
  | zero =>
      intro hs fid L i _ h
      simpa [redoRun] using h
  | succ k ih =>
      intro hs fid L i hk h
      have hstep : redo hs fid
          = (some (L.getD (i + 1) ""),
             mapSet hs fid ⟨L, ((i + 1 : Nat) : Int)⟩) := by
        simp only [redo, h]
        rw [if_pos (show ((⟨L, (i : Int)⟩ : DocumentHistoryEntry).currentIndex)
          < ((⟨L, (i : Int)⟩ :
              DocumentHistoryEntry).history.length : Int) - 1 by
            dsimp only; omega)]
        have hcast : ((i : Int)) + 1 = ((i + 1 : Nat) : Int) := by omega
        rw [hcast, jsGet_lt L (i + 1) (by omega)]
      obtain ⟨ih1, ih2⟩ := ih (mapSet hs fid ⟨L, ((i + 1 : Nat) : Int)⟩) fid L
        (i + 1) (by omega) (mapSet_self _ _ _)
      constructor
      · show (redo hs fid).1 :: (redoRun k (redo hs fid).2 fid).1 = _
        rw [hstep]
        rw [ih1, List.range_succ_eq_map, List.map_cons, List.map_map]
        congr 1
        apply List.map_congr_left
        intro j _
        show some (L.getD (i + 1 + 1 + j) "")
          = some (L.getD (i + 1 + (j + 1)) "")
        exact congrArg (fun m => some (L.getD m "")) (by omega)
      · show (redoRun k (redo hs fid).2 fid).2 fid = _
        rw [hstep]
        rw [ih2]
        have : i + 1 + k = i + (k + 1) := by omega
        rw [this]

/-- C1 counterexample: the claim quantifies over EVERY sequence of contents,
but with `c0 = c1 = "a"` the push after `initialize` is an idempotent no-op,
so the single `undo` returns nothing instead of the expected snapshot
`c0 = "a"`. -/
theorem undo_redo_inverse_law_cex :
    (undoRun 1 (pushAll (initHistory emptyHistories "doc" "a") "doc" ["a"])
        "doc").1 ≠ [some "a"] := by decide

/-- C1 (amended): starting from a store with no entry for the document id,
after `initialize(id, c0)` and pushes of `c1, ..., cn` where each content
differs from its predecessor (`n >= 1`) and `n <= 49` (so the 50-cap never
trims), the entry holds `history = [c0..cn]` with `currentIndex = n`; the
`k`-th of `n` undos returns snapshot `c(n-k)` (reverse order, landing on
index 0), the `k`-th of `n` redos returns `ck` (forward order), and after
the `n` redos the index is back at `n`, whose snapshot is the last pushed
content `cn`. -/
theorem undo_redo_inverse_law (hs0 : DocHistories) (fid c0 : String)
    (cs : List String) (hfresh : hs0 fid = none) (hn : 1 ≤ cs.length)
    (hcap : cs.length ≤ 49)
    (hchain : List.Chain' (fun a b => a ≠ b) (c0 :: cs)) :
    let n := cs.length
    let L := c0 :: cs
    let s := pushAll (initHistory hs0 fid c0) fid cs
    let u := undoRun n s fid
    let r := redoRun n u.2 fid
    s fid = some ⟨L, (n : Int)⟩
  ∧ u.1 = (List.range n).map (fun j => some (L.getD (n - 1 - j) ""))
  ∧ u.2 fid = some ⟨L, ((0 : Nat) : Int)⟩
  ∧ r.1 = (List.range n).map (fun j => some (L.getD (1 + j) ""))
  ∧ r.2 fid = some ⟨L, (n : Int)⟩
  ∧ cs.getLast? = some (L.getD n "") := by
  intro n L s u r
  have hinit : (initHistory hs0 fid c0) fid
      = some ⟨[c0], ((([c0] : List String).length : Int)) - 1⟩ := by
    simp only [initHistory, hfresh]
    rw [mapSet_self]
    norm_num
  have hpushed := pushAll_run cs (initHistory hs0 fid c0) fid [c0] c0 rfl
    (by simp only [List.length_cons, List.length_nil, MAX_HISTORY_STEPS]
        omega)
    hchain hinit
  have hidx : ((([c0] ++ cs).length : Int)) - 1 = (n : Int) := by
    simp only [List.length_append, List.length_cons, List.length_nil]
    push_cast
    omega
  have hs_fid : s fid = some ⟨L, (n : Int)⟩ := by
    rw [show s fid = (pushAll (initHistory hs0 fid c0) fid cs) fid from rfl,
      hpushed]
    rw [hidx]
    rfl
  have hnlt : n < L.length := by
    simp only [L, List.length_cons]
    omega
  obtain ⟨hu1, hu2⟩ := undoRun_spec n s fid L n (le_refl n) hnlt hs_fid
  have hu2' : u.2 fid = some ⟨L, ((0 : Nat) : Int)⟩ := by
    rw [show u.2 fid = (undoRun n s fid).2 fid from rfl, hu2, Nat.sub_self]
  obtain ⟨hr1, hr2⟩ := redoRun_spec n u.2 fid L 0
    (by omega) hu2'
  have hr1' : r.1 = (List.range n).map (fun j => some (L.getD (1 + j) "")) := by
    rw [show r.1 = (redoRun n u.2 fid).1 from rfl, hr1]
  have hr2' : r.2 fid = some ⟨L, (n : Int)⟩ := by
    rw [show r.2 fid = (redoRun n u.2 fid).2 fid from rfl, hr2, Nat.zero_add]
  have hcs : cs ≠ [] := by
    intro hnil
    rw [hnil] at hn
    simp at hn
  have hlast : cs.getLast? = some (L.getD n "") := by
    have h1 : L.getD n "" = (L.getLast?).getD "" := by
      rw [List.getD_eq_getElem?_getD, List.getLast?_eq_getElem?]
      rw [show L.length - 1 = n from by
        simp only [L, List.length_cons]
        omega]
    have h2 : L.getLast? = cs.getLast? := by
      rcases cs with _ | ⟨c, cs'⟩
      · exact absurd rfl hcs
      · exact List.getLast?_cons_cons
    rw [h1, h2]
    rcases hgl : cs.getLast? with _ | x
    · rw [List.getLast?_eq_none_iff] at hgl
      exact absurd hgl hcs
    · rfl
  exact ⟨hs_fid, hu1, hu2', hr1', hr2', hlast⟩

/-- C1 witness: the amended law at `c0 = "a"`, pushes `["b", "c"]`. -/
theorem undo_redo_inverse_law_witness :
    (let n := (["b", "c"] : List String).length
     let L := "a" :: ["b", "c"]
     let s := pushAll (initHistory emptyHistories "doc" "a") "doc" ["b", "c"]
     let u := undoRun n s "doc"
     let r := redoRun n u.2 "doc"
     s "doc" = some ⟨L, (n : Int)⟩
   ∧ u.1 = (List.range n).map (fun j => some (L.getD (n - 1 - j) ""))
   ∧ u.2 "doc" = some ⟨L, ((0 : Nat) : Int)⟩
   ∧ r.1 = (List.range n).map (fun j => some (L.getD (1 + j) ""))
   ∧ r.2 "doc" = some ⟨L, (n : Int)⟩
   ∧ (["b", "c"] : List String).getLast? = some (L.getD n "")) :=
  undo_redo_inverse_law emptyHistories "doc" "a" ["b", "c"] rfl (by decide)
    (by decide)
    (List.chain'_cons.mpr ⟨by decide,
      List.chain'_cons.mpr ⟨by decide, List.chain'_singleton "c"⟩⟩)

/-! ### Chat transcript (src/unnamed/part_003, `useChatLogic`) -/

/-- Message sender: the `'user' | 'ai'` union of `ChatMessage.sender`
(types.ts). -/
inductive Sender where
  | user
  | ai
deriving DecidableEq, Repr

/-- `ChatMessage` (types.ts): the timestamp (a JS `Date`) is modelled as
milliseconds since the epoch; the image attachment and its preview URL are
opaque strings.  The display-only optional fields (`isStreaming`,
`fullText`) are never read or written by the modelled transcript operations
and are omitted. -/
structure ChatMessage where
  id : String
  sender : Sender
  text : String
  timestamp : Nat
  imagePart : Option String := none
  imagePreviewUrl : Option String := none
deriving DecidableEq, Repr

/-- The boolean key order behind the JS comparator
`(a, b) => new Date(a.timestamp).getTime() - new Date(b.timestamp).getTime()`. -/
def tsLe (a b : ChatMessage) : Bool := a.timestamp ≤ b.timestamp

/-- Stable insertion of a message into a timestamp-sorted list: the new
element goes AFTER every element whose timestamp is less than or equal to
its own, exactly where a stable sort keeps a later-indexed element. -/
def insertTs (a : ChatMessage) : List ChatMessage → List ChatMessage
  | [] => [a]
  | b :: l => if tsLe b a then b :: insertTs a l else a :: b :: l

/-- JS `[...].sort((a, b) => ta - tb)`: `Array.prototype.sort` is a STABLE
sort (ES2019), and for the total preorder induced by the numeric comparator
the stable sorted arrangement is unique, so a structurally recursive stable
insertion sort computes it. -/
def sortByTimestamp (l : List ChatMessage) : List ChatMessage :=
  l.foldl (fun acc m => insertTs m acc) []

/-- `addMessageToList` (part_003, lines 257-259): append, then re-sort. -/
def addMessageToList (prev : List ChatMessage) (message : ChatMessage) :
    List ChatMessage :=
  sortByTimestamp (prev ++ [message])

/-- `deleteChatMessage` (lines 423-426): filter the id out, then re-sort. -/
def deleteChatMessage (prev : List ChatMessage) (messageId : String) :
    List ChatMessage :=
  sortByTimestamp (prev.filter (fun msg => msg.id != messageId))

/-- The initial load from storage (lines 245-248): parsed messages are
sorted by timestamp. -/
def loadChatMessages (savedMessages : List ChatMessage) : List ChatMessage :=
  sortByTimestamp savedMessages

/-- Phase 1 of `editAndRegenerateMessage` (lines 339-367): locate the user
message (`none` models the early return when it is absent); overwrite its
text, bump its timestamp to `now`, replace its image fields; if the message
at the NEXT ARRAY POSITION is an assistant message record its id and filter
it out (the stale response); re-sort by timestamp. -/
def editAndRegeneratePhase1 (chatMessages : List ChatMessage)
    (originalUserMessageId newText : String) (now : Nat)
    (imagePart imagePreviewUrl : Option String) :
    Option (List ChatMessage) :=
  match chatMessages.findIdx? (fun msg => msg.id == originalUserMessageId) with
  | none => none
  | some userMessageIndex =>
      let tempUpdatedMessages :=
        match chatMessages[userMessageIndex]? with
        | some m =>
            chatMessages.set userMessageIndex
              { m with text := newText, timestamp := now,
                       imagePart := imagePart,
                       imagePreviewUrl := imagePreviewUrl }
        | none => chatMessages
      let oldAiMessageIdToRemove :=
        match tempUpdatedMessages[userMessageIndex + 1]? with
        | some nextMsg =>
            if nextMsg.sender = Sender.ai then some nextMsg.id else none
        | none => none
      let tempUpdatedMessages :=
        match oldAiMessageIdToRemove with
        | some oldId => tempUpdatedMessages.filter (fun msg => msg.id != oldId)
        | none => tempUpdatedMessages
      some (sortByTimestamp tempUpdatedMessages)

/-- The insertion step of phase 2 of `editAndRegenerateMessage` (lines
389-397): splice the fresh assistant response in immediately after the
edited user message (by array position), or append it at the end when the
user message is no longer present. -/
def insertResponseAfter (finalMessages : List ChatMessage)
    (originalUserMessageId : String) (newAiResponseMessage : ChatMessage) :
    List ChatMessage :=
  match finalMessages.findIdx? (fun m => m.id == originalUserMessageId) with
  | some updatedUserMessageIdx =>
      finalMessages.insertIdx (updatedUserMessageIdx + 1) newAiResponseMessage
  | none => finalMessages ++ [newAiResponseMessage]

/-- Phase 2 of `editAndRegenerateMessage` (line 397): insert the fresh
response, then re-sort by timestamp. -/
def editAndRegeneratePhase2 (prev : List ChatMessage)
    (originalUserMessageId : String) (newAiResponseMessage : ChatMessage) :
    List ChatMessage :=
  sortByTimestamp
    (insertResponseAfter prev originalUserMessageId newAiResponseMessage)

/-- The welcome text (lines 437-439). -/
def welcomeText (fileName : String) (isNewFile : Bool) : String :=
  if isNewFile then
    "Has creado y abierto \"" ++ fileName ++ "\". ¿En qué puedo ayudarte?"
  else
    "Has abierto \"" ++ fileName ++ "\". ¿En qué puedo ayudarte?"

/-- `addWelcomeMessage` (lines 441-451): drop previous "document opened"
assistant messages (recognised by the fixed text prefixes), append one fresh
welcome message, and re-sort. -/
def addWelcomeMessage (prevMessages : List ChatMessage) (fileName : String)
    (isNewFile : Bool) (newId : String) (now : Nat) : List ChatMessage :=
  let filteredMessages := prevMessages.filter
    (fun m => !(decide (m.sender = Sender.ai)
      && (m.text.startsWith "Has abierto"
          || m.text.startsWith "Has creado y abierto")))
  let newMessage : ChatMessage :=
    ⟨newId, Sender.ai, welcomeText fileName isNewFile, now, none, none⟩
  sortByTimestamp (filteredMessages ++ [newMessage])

/-! ### Sortedness of the stable sort -/

/-- The transcript ordering invariant: timestamps ascending. -/
def SortedByTs (l : List ChatMessage) : Prop :=
  l.Pairwise (fun a b => tsLe a b = true)

theorem mem_insertTs (a x : ChatMessage) :
    ∀ l : List ChatMessage, x ∈ insertTs a l ↔ x = a ∨ x ∈ l := by
  intro l
  induction l with
  | nil => simp [insertTs]
  | cons b t ih =>
      simp only [insertTs]
      split <;> simp only [List.mem_cons, ih]
      all_goals tauto

theorem sortedByTs_insertTs (a : ChatMessage) :
    ∀ l : List ChatMessage, SortedByTs l → SortedByTs (insertTs a l) := by
  intro l
  induction l with
  | nil =>
      intro _
      simp [insertTs, SortedByTs]
  | cons b t ih =>
      intro h
      simp only [SortedByTs, List.pairwise_cons] at h
      simp only [insertTs]
      split
      · rename_i hba
        simp only [SortedByTs, List.pairwise_cons]
        constructor
        · intro x hx
          rcases (mem_insertTs a x t).mp hx with rfl | hxt
          · exact hba
          · exact h.1 x hxt
        · exact ih h.2
      · rename_i hba
        simp only [SortedByTs, List.pairwise_cons]
        have hab : tsLe a b = true := by
          simp only [tsLe, decide_eq_true_eq] at hba ⊢
          omega
        refine ⟨?_, ?_, h.2⟩
        · intro x hx
          rcases List.mem_cons.mp hx with rfl | hxt
          · exact hab
          · have hbx := h.1 x hxt
            simp only [tsLe, decide_eq_true_eq] at hab hbx ⊢
            omega
        · exact h.1

theorem sortedByTs_foldl (l : List ChatMessage) :
    ∀ acc : List ChatMessage, SortedByTs acc →
    SortedByTs (l.foldl (fun acc m => insertTs m acc) acc) := by
  induction l with
  | nil => exact fun acc h => h
  | cons m t ih =>
      intro acc h
      exact ih (insertTs m acc) (sortedByTs_insertTs m acc h)

theorem sortedByTs_sortByTimestamp (l : List ChatMessage) :
    SortedByTs (sortByTimestamp l) :=
  sortedByTs_foldl l [] (by simp [SortedByTs])

/-- C6: every mutating transcript operation — appending a message,
edit-and-regenerate (both phases), deleting a message, welcome-message
replacement, and the initial load from storage — leaves the transcript
sorted by timestamp ascending, even when the mutated message's timestamp is
out of order relative to the existing messages. -/
theorem transcript_sorted_invariant :
    (∀ (prev : List ChatMessage) (m : ChatMessage),
        SortedByTs (addMessageToList prev m))
  ∧ (∀ (prev : List ChatMessage) (messageId : String),
        SortedByTs (deleteChatMessage prev messageId))
  ∧ (∀ (prev out : List ChatMessage) (mid newText : String) (now : Nat)
        (ip ipu : Option String),
        editAndRegeneratePhase1 prev mid newText now ip ipu = some out →
        SortedByTs out)
  ∧ (∀ (prev : List ChatMessage) (mid : String) (m : ChatMessage),
        SortedByTs (editAndRegeneratePhase2 prev mid m))
  ∧ (∀ (prev : List ChatMessage) (fileName : String) (isNewFile : Bool)
        (newId : String) (now : Nat),
        SortedByTs (addWelcomeMessage prev fileName isNewFile newId now))
  ∧ (∀ savedMessages : List ChatMessage,
        SortedByTs (loadChatMessages savedMessages)) := by
  refine ⟨fun prev m => sortedByTs_sortByTimestamp _,
          fun prev mid => sortedByTs_sortByTimestamp _,
          ?_,
          fun prev mid m => sortedByTs_sortByTimestamp _,
          fun prev fn inf nid now => sortedByTs_sortByTimestamp _,
          fun saved => sortedByTs_sortByTimestamp _⟩
  intro prev out mid newText now ip ipu h
  unfold editAndRegeneratePhase1 at h
  rcases hidx : prev.findIdx? (fun msg => msg.id == mid) with _ | i
  · rw [hidx] at h
    exact absurd h (by simp)
  · rw [hidx] at h
    simp only [Option.some_injective] at h
    rw [← Option.some_injective _ h]
    exact sortedByTs_sortByTimestamp _

/-- C6 witness: the phase-1 hypothesis discharged at a concrete transcript
with an out-of-order edit (the edited timestamp jumps past a later
message). -/
theorem transcript_sorted_invariant_witness :
    SortedByTs ((editAndRegeneratePhase1
      [⟨"u1", Sender.user, "q1", 1, none, none⟩,
       ⟨"u2", Sender.user, "q2", 3, none, none⟩] "u1" "q1x" 5 none
        none).getD []) := by
  have h := transcript_sorted_invariant.2.2.1
    [⟨"u1", Sender.user, "q1", 1, none, none⟩,
     ⟨"u2", Sender.user, "q2", 3, none, none⟩]
    ((editAndRegeneratePhase1
      [⟨"u1", Sender.user, "q1", 1, none, none⟩,
       ⟨"u2", Sender.user, "q2", 3, none, none⟩] "u1" "q1x" 5 none
        none).getD [])
    "u1" "q1x" 5 none none (by decide)
  exact h

/-! ### Edit-and-regenerate, concrete scenario (C5) -/

/-- The transcript `[U1, A1, U2, A2]` of the scenario. -/
def chatU1 : ChatMessage := ⟨"u1", Sender.user, "q1", 1, none, none⟩

def chatA1 : ChatMessage := ⟨"a1", Sender.ai, "r1", 2, none, none⟩

def chatU2 : ChatMessage := ⟨"u2", Sender.user, "q2", 3, none, none⟩

def chatA2 : ChatMessage := ⟨"a2", Sender.ai, "r2", 4, none, none⟩

/-- `U1` after the edit: new text, timestamp bumped to now (= 5). -/
def chatU1edited : ChatMessage := ⟨"u1", Sender.user, "q1x", 5, none, none⟩

/-- The fresh assistant reply `A1'`, created after the edit (timestamp 6). -/
def chatA1fresh : ChatMessage := ⟨"a1x", Sender.ai, "r1x", 6, none, none⟩

/-- C5 counterexample: the claim reads the final transcript as
`U1(edited), A1', U2, A2` in that order, but the edit bumps `U1`'s timestamp
to "now", which is later than `U2`'s and `A2`'s, so the timestamp sort moves
the edited pair after them. -/
theorem edit_regenerate_order_cex :
    editAndRegeneratePhase2
      ((editAndRegeneratePhase1 [chatU1, chatA1, chatU2, chatA2] "u1" "q1x" 5
          none none).getD [])
      "u1" chatA1fresh
      ≠ [chatU1edited, chatA1fresh, chatU2, chatA2] := by decide

/-- C5 (amended): editing `U1` in `[U1, A1, U2, A2]` removes exactly the
stale `A1`, rewrites exactly `U1` (new text, timestamp bumped to now); the
fresh `A1'` is inserted immediately after the edited `U1` pre-sort; the
final transcript consists of exactly `U1(edited), A1', U2, A2` — sorted by
timestamp it reads `U2, A2, U1(edited), A1'` because the bumped timestamp
moves the edited pair after the untouched `U2, A2`, which keep their
original relative order.  No other message is removed or modified. -/
theorem edit_regenerate_scenario :
    editAndRegeneratePhase1 [chatU1, chatA1, chatU2, chatA2] "u1" "q1x" 5
        none none
      = some [chatU2, chatA2, chatU1edited]
  ∧ insertResponseAfter [chatU2, chatA2, chatU1edited] "u1" chatA1fresh
      = [chatU2, chatA2, chatU1edited, chatA1fresh]
  ∧ editAndRegeneratePhase2 [chatU2, chatA2, chatU1edited] "u1" chatA1fresh
      = [chatU2, chatA2, chatU1edited, chatA1fresh]
  ∧ [chatU2, chatA2, chatU1edited, chatA1fresh].Perm
      [chatU1edited, chatA1fresh, chatU2, chatA2] := by
  refine ⟨by decide, by decide, by decide, ?_⟩
  decide

/-! ### AI undo snapshot (C9) -/

/-- `AppFile` (types.ts); `Date` fields are modelled as milliseconds. -/
structure AppFile where
  id : String
  name : String
  folderId : Option String
  content : String
  createdAt : Nat
  deletedAt : Option Nat := none
deriving DecidableEq, Repr

/-- The coordinator-relevant state: the transcript, the file list, the
History Store map, the AI Undo Snapshot, and the two flags. -/
structure ChatState where
  chatMessages : List ChatMessage
  files : List AppFile
  documentHistories : DocHistories
  previousDocumentContentForUndo : Option String
  isAILoading : Bool
  isAICollaborating : Bool

/-- `updateFileContentOnly` (src/hooks/useFileSystem.ts, lines 88-91):
replace the content of the file with the given id. -/
def updateFileContentOnly (files : List AppFile) (fileId newContent : String) :
    List AppFile :=
  files.map (fun f => if f.id = fileId then { f with content := newContent }
    else f)

/-- `handleDocumentContentChange` (part_003, lines 62-67): the Content
Mutation Gateway — behind the JS truthiness guard on `fileId`, update the
stored content AND push a history step. -/
def handleDocumentContentChange (s : ChatState) (fileId newContent : String) :
    ChatState :=
  if fileId = "" then s
  else
    { s with
        files := updateFileContentOnly s.files fileId newContent,
        documentHistories :=
          addHistoryStep s.documentHistories fileId newContent }

/-- The document-update branch of `sendNewMessage` (part_003, lines
292-296): snapshot the active file's current content into the AI Undo
Snapshot, raise the collaborating flag, and apply the new content via the
gateway. -/
def aiApplyDocumentUpdate (s : ChatState) (activeFile : AppFile)
    (newDocumentContent : String) : ChatState :=
  handleDocumentContentChange
    { s with
        previousDocumentContentForUndo := some activeFile.content,
        isAICollaborating := true }
    activeFile.id newDocumentContent

/-- `undoAIDocumentChange` (part_003, lines 428-434): when a document is
active and a snapshot exists, apply the snapshot via the gateway and clear
the snapshot; otherwise do nothing. -/
def undoAIDocumentChange (s : ChatState) (activeFile : Option AppFile) :
    ChatState :=
  match activeFile, s.previousDocumentContentForUndo with
  | some f, some prev =>
      { handleDocumentContentChange s f.id prev with
          previousDocumentContentForUndo := none }
  | _, _ => s

/-- The content of the file with the given id, if present. -/
def fileContent (files : List AppFile) (fileId : String) : Option String :=
  (files.find? (fun f => f.id == fileId)).map (fun f => f.content)

theorem fileContent_update (files : List AppFile) (fileId newContent : String) :
    fileContent (updateFileContentOnly files fileId newContent) fileId
      = (fileContent files fileId).map (fun _ => newContent) := by
  induction files with
  | nil => rfl
  | cons f fs ih =>
      by_cases h : f.id = fileId
      · simp [fileContent, updateFileContentOnly, h]
      · simp only [fileContent, updateFileContentOnly, List.map_cons] at ih ⊢
        rw [if_neg h, List.find?_cons_of_neg _ (by simp [h]),
          List.find?_cons_of_neg _ (by simp [h])]
        exact ih

/-- C9: `undoAIDocumentChange` with no active document, or with no pending
AI Undo Snapshot, changes nothing at all; with an active document and a
snapshot `p` it routes `p` through the Content Mutation Gateway (so the
restore is recorded as a new history step and the stored content becomes
`p`) and clears the snapshot.  Composed with an AI document update: the
update snapshots the pre-edit content and installs the new content; one
undo restores exactly the pre-edit content and clears the snapshot; a
second undo without an intervening AI edit is a no-op. -/
theorem ai_undo_scoping :
    (∀ s : ChatState, undoAIDocumentChange s none = s)
  ∧ (∀ (s : ChatState) (g : AppFile),
       s.previousDocumentContentForUndo = none →
       undoAIDocumentChange s (some g) = s)
  ∧ (∀ (s : ChatState) (g : AppFile) (p : String),
       s.previousDocumentContentForUndo = some p → g.id ≠ "" →
       (undoAIDocumentChange s (some g)).documentHistories
           = addHistoryStep s.documentHistories g.id p
       ∧ (undoAIDocumentChange s (some g)).files
           = updateFileContentOnly s.files g.id p
       ∧ (undoAIDocumentChange s (some g)).previousDocumentContentForUndo
           = none)
  ∧ (∀ (s : ChatState) (f g : AppFile) (newContent : String),
       g.id = f.id → f.id ≠ "" →
       fileContent s.files f.id = some f.content →
       let s1 := aiApplyDocumentUpdate s f newContent
       let s2 := undoAIDocumentChange s1 (some g)
       fileContent s1.files f.id = some newContent
       ∧ s1.previousDocumentContentForUndo = some f.content
       ∧ fileContent s2.files f.id = some f.content
       ∧ s2.previousDocumentContentForUndo = none
       ∧ undoAIDocumentChange s2 (some g) = s2) := by
  have hnone : ∀ (s : ChatState) (g : AppFile),
      s.previousDocumentContentForUndo = none →
      undoAIDocumentChange s (some g) = s := by
    intro s g h
    simp only [undoAIDocumentChange, h]
  refine ⟨fun s => rfl, hnone, ?_, ?_⟩
  · intro s g p h hgid
    refine ⟨?_, ?_, ?_⟩ <;>
      simp only [undoAIDocumentChange, h, handleDocumentContentChange,
        if_neg hgid]
  · intro s f g newContent hgf hfid hcont
    intro s1 s2
    have hgid : g.id ≠ "" := by
      rw [hgf]
      exact hfid
    have h1files : s1.files = updateFileContentOnly s.files f.id newContent := by
      show (aiApplyDocumentUpdate s f newContent).files = _
      simp only [aiApplyDocumentUpdate, handleDocumentContentChange,
        if_neg hfid]
    have h1prev : s1.previousDocumentContentForUndo = some f.content := by
      show (aiApplyDocumentUpdate s f
        newContent).previousDocumentContentForUndo = _
      simp only [aiApplyDocumentUpdate, handleDocumentContentChange,
        if_neg hfid]
    have hc1 : fileContent s1.files f.id = some newContent := by
      rw [h1files, fileContent_update, hcont]
      rfl
    have h2files : s2.files = updateFileContentOnly s1.files g.id f.content := by
      show (undoAIDocumentChange s1 (some g)).files = _
      simp only [undoAIDocumentChange, h1prev, handleDocumentContentChange,
        if_neg hgid]
    have h2prev : s2.previousDocumentContentForUndo = none := by
      show (undoAIDocumentChange s1 (some g)).previousDocumentContentForUndo
        = none
      simp only [undoAIDocumentChange, h1prev]
    have hc2 : fileContent s2.files f.id = some f.content := by
      rw [h2files, hgf, fileContent_update, hc1]
      rfl
    exact ⟨hc1, h1prev, hc2, h2prev, hnone s2 g h2prev⟩

/-- A concrete file and state for the C9 witness. -/
def witFile : AppFile := ⟨"f1", "doc.txt", none, "orig", 0, none⟩

def witState : ChatState := ⟨[], [witFile], emptyHistories, none, false, false⟩

/-- C9 witness: the AI-edit/undo round trip on a concrete state. -/
theorem ai_undo_scoping_witness :
    (let s1 := aiApplyDocumentUpdate witState witFile "new"
     let s2 := undoAIDocumentChange s1 (some witFile)
     fileContent s1.files witFile.id = some "new"
     ∧ s1.previousDocumentContentForUndo = some witFile.content
     ∧ fileContent s2.files witFile.id = some witFile.content
     ∧ s2.previousDocumentContentForUndo = none
     ∧ undoAIDocumentChange s2 (some witFile) = s2) :=
  ai_undo_scoping.2.2.2 witState witFile witFile "new" rfl (by decide)
    (by decide)

end AIL
